import Mathlib

/-!
Verification of the BB84 protocol engine (Flask backend in app.py, with
alice.py, bob.py and randomkey.py).

Shallow embedding conventions:
- Python ints carried in qubit descriptors (bit and basis fields) are
  modelled as integers; list indices (match indices, sample indices) are
  modelled as naturals.
- Stochastic draws (random.random() < rate, random.randint(0, 1),
  secrets.choice([0, 1]), random.shuffle) are modelled as explicit oracle
  parameters: a Bool- or Int-valued function of the position for per-item
  draws, and for random.shuffle the already-shuffled list, which is a
  permutation of List.range n.
- Python float arithmetic on the QBER is modelled with exact rationals.
  The only float expressions in the modelled code are
  (error_count / total) * 100, whose comparison with 0 is exact in IEEE
  arithmetic (it is 0.0 iff error_count == 0), and total_len * 0.3, whose
  truncation int(total_len * 0.3) agrees with the exact 3 * total_len / 10
  for every attainable length (the float product has relative error below
  1e-15, far too small to bridge the distance 1/10 to the next integer).
- Fallible code (Python exceptions, flask error responses) is modelled
  with Option / Except; the error enumeration ApiError stands for the
  distinct error strings of the routes.
-/

namespace BB84

/-- Classical description of one prepared qubit: the wire records
`{bit: int, basis: int}` built in `get_quantum_data` / `bob_measure`
(app.py). -/
structure Qubit where
  bit : ℤ
  basis : ℤ
deriving DecidableEq

/-- Process-wide noise configuration `noise_config` of app.py. -/
structure NoiseConfig where
  eve_active : Bool
  network_noise_rate : ℚ
  channel_noise_rate : ℚ
  t1_us : ℚ
  t2_us : ℚ
  packet_loss_rate : ℚ

/-- Loop body of `_apply_eve` (app.py lines 86-107): for each descriptor,
draw a random basis for Eve; on basis mismatch replace the bit by a fresh
random bit, otherwise pass the descriptor through unchanged. The index
argument threads the position used to address the per-item oracle draws. -/
def eveAux (eveBasis eveBit : ℕ → ℤ) : ℕ → List Qubit → List Qubit
  | _, [] => []
  | i, q :: qs =>
    (if eveBasis i ≠ q.basis then Qubit.mk (eveBit i) q.basis else q)
      :: eveAux eveBasis eveBit (i + 1) qs

/-- `_apply_eve` of app.py. -/
def apply_eve (qubit_data : List Qubit) (eveBasis eveBit : ℕ → ℤ) : List Qubit :=
  eveAux eveBasis eveBit 0 qubit_data

/-- Loop body of `_apply_packet_loss` (app.py lines 67-83): each descriptor
is dropped or kept according to the per-item draw; survivors are appended
in order and the dropped items are counted. -/
def packetLossAux (drop : ℕ → Bool) : ℕ → List Qubit → List Qubit × ℕ
  | _, [] => ([], 0)
  | i, q :: qs =>
    let r := packetLossAux drop (i + 1) qs
    if drop i then (r.1, r.2 + 1) else (q :: r.1, r.2)

/-- `_apply_packet_loss` of app.py, including the `rate <= 0` fast path. -/
def apply_packet_loss (qubit_data : List Qubit) (rate : ℚ) (drop : ℕ → Bool) :
    List Qubit × ℕ :=
  if rate ≤ 0 then (qubit_data, 0) else packetLossAux drop 0 qubit_data

/-- Loop body of `_apply_network_noise` (app.py lines 48-64): each
surviving descriptor has its bit flipped (`entry[bit] = 1 - entry[bit]`)
according to the per-item draw; flips are counted. -/
def networkNoiseAux (flip : ℕ → Bool) : ℕ → List Qubit → List Qubit × ℕ
  | _, [] => ([], 0)
  | i, q :: qs =>
    let r := networkNoiseAux flip (i + 1) qs
    if flip i then (Qubit.mk (1 - q.bit) q.basis :: r.1, r.2 + 1) else (q :: r.1, r.2)

/-- `_apply_network_noise` of app.py, including the `rate <= 0` fast path. -/
def apply_network_noise (qubit_data : List Qubit) (rate : ℚ) (flip : ℕ → Bool) :
    List Qubit × ℕ :=
  if rate ≤ 0 then (qubit_data, 0) else networkNoiseAux flip 0 qubit_data

/-- Channel pipeline of the `get_quantum_data` route (app.py lines
203-234); the route `bob_measure` (lines 239-265) applies the identical
pipeline. `original_count` is taken from the input before any stage runs,
then Eve (when active), packet loss and network noise are applied in that
order. The result carries the surviving descriptors, the dropped count,
the flip count and the original count. The guard returning a 404 when no
keys were generated yet is outside the pipeline and not modelled. -/
def get_quantum_data (qubit_data : List Qubit) (cfg : NoiseConfig)
    (eveBasis eveBit : ℕ → ℤ) (drop flip : ℕ → Bool) :
    List Qubit × ℕ × ℕ × ℕ :=
  let original_count := qubit_data.length
  let afterEve := if cfg.eve_active then apply_eve qubit_data eveBasis eveBit else qubit_data
  let lossResult := apply_packet_loss afterEve cfg.packet_loss_rate drop
  let noiseResult := apply_network_noise lossResult.1 cfg.network_noise_rate flip
  (noiseResult.1, lossResult.2, noiseResult.2, original_count)

/-- Loop of `Bob.sift_keys` (bob.py lines 68-85): walk both basis lists in
step (Python zip stops at the shorter list), and at every index where the
bases agree, look up `measured_bits[i]` and record the bit and the index.
A lookup outside `measured_bits` is a Python IndexError, modelled as
`none`. -/
def siftAux (measured_bits : List ℤ) : ℕ → List ℤ → List ℤ → Option (List ℤ × List ℕ)
  | _, [], _ => some ([], [])
  | _, _ :: _, [] => some ([], [])
  | i, a :: as, b :: bs =>
    if a = b then
      match measured_bits[i]? with
      | none => none
      | some bit =>
        match siftAux measured_bits (i + 1) as bs with
        | none => none
        | some r => some (bit :: r.1, i :: r.2)
    else siftAux measured_bits (i + 1) as bs

/-- `Bob.sift_keys` of bob.py. The `sift_keys` route of app.py first trims
all three lists to `min(len(alice_bases), len(bob_bases))`, which the zip
of the two basis lists already realises. -/
def sift_keys (alice_bases bob_bases measured_bits : List ℤ) :
    Option (List ℤ × List ℕ) :=
  siftAux measured_bits 0 alice_bases bob_bases

/-- Reference form of the matching indices of `Bob.sift_keys`, used to
state its characterisation: the positions below both lengths where the two
bases agree, in increasing order, shifted by the starting index. -/
def matchIdxAux : ℕ → List ℤ → List ℤ → List ℕ
  | _, [], _ => []
  | _, _ :: _, [] => []
  | i, a :: as, b :: bs =>
    if a = b then i :: matchIdxAux (i + 1) as bs else matchIdxAux (i + 1) as bs

lemma matchIdxAux_eq (a : List ℤ) : ∀ (b : List ℤ) (i : ℕ),
    matchIdxAux i a b =
      ((List.range (min a.length b.length)).filter
        (fun j => decide (a.getD j 0 = b.getD j 0))).map (· + i) := by
  induction a with
  | nil => intro b i; simp [matchIdxAux]
  | cons x xs ih =>
    intro b i
    cases b with
    | nil => simp [matchIdxAux]
    | cons y ys =>
      have hmin : min (x :: xs).length (y :: ys).length = min xs.length ys.length + 1 := by
        simp [List.length_cons]
        omega
      have hcomp : ((fun j => decide ((x :: xs).getD j 0 = (y :: ys).getD j 0)) ∘ Nat.succ)
          = (fun j => decide (xs.getD j 0 = ys.getD j 0)) := by
        funext j
        simp [Function.comp, List.getD_cons_succ]
      have harr : ((fun x => x + i) ∘ Nat.succ) = (fun x => x + (i + 1)) := by
        funext j
        simp only [Function.comp_apply, Nat.succ_eq_add_one]
        omega
      rw [matchIdxAux, hmin, List.range_succ_eq_map]
      simp only [List.filter_cons, List.filter_map, hcomp, List.getD_cons_zero,
        decide_eq_true_eq]
      by_cases hxy : x = y
      · simp only [if_pos hxy, List.map_cons, List.map_map]
        rw [harr, ih ys (i + 1)]
        simp
      · simp only [if_neg hxy, List.map_map]
        rw [harr, ih ys (i + 1)]

lemma siftAux_eq (m : List ℤ) (a : List ℤ) : ∀ (b : List ℤ) (i : ℕ),
    i + min a.length b.length ≤ m.length →
    siftAux m i a b =
      some ((matchIdxAux i a b).map (fun j => m.getD j 0), matchIdxAux i a b) := by
  induction a with
  | nil => intro b i _; simp [siftAux, matchIdxAux]
  | cons x xs ih =>
    intro b i h
    cases b with
    | nil => simp [siftAux, matchIdxAux]
    | cons y ys =>
      simp only [List.length_cons] at h
      have hi : i < m.length := by omega
      have hm : m[i]? = some (m.getD i 0) := by
        rw [List.getElem?_eq_getElem hi, List.getD_eq_getElem _ _ hi]
      rw [siftAux, matchIdxAux]
      by_cases hxy : x = y
      · rw [if_pos hxy, if_pos hxy, hm, ih ys (i + 1) (by omega)]
        simp
      · rw [if_neg hxy, if_neg hxy]
        exact ih ys (i + 1) (by omega)

/-- C1: sift walks positions 0 up to the minimum of the two basis-list
lengths and, exactly at every position where the two bases are equal,
appends the receiver bit at that position to the sifted key and the
position itself to the match indices, preserving order and keeping no bit
on mismatch; on the concrete spec example it returns key [0, 1] and
indices [0, 3]. -/
theorem sift_keys_correct (a b m : List ℤ) (h : min a.length b.length ≤ m.length) :
    sift_keys a b m =
      some (((List.range (min a.length b.length)).filter
              (fun j => decide (a.getD j 0 = b.getD j 0))).map (fun j => m.getD j 0),
            (List.range (min a.length b.length)).filter
              (fun j => decide (a.getD j 0 = b.getD j 0)))
    ∧ sift_keys [0, 1, 0, 1, 0] [0, 0, 1, 1, 1] [0, 1, 0, 1, 1] = some ([0, 1], [0, 3]) := by
  constructor
  · rw [sift_keys, siftAux_eq m a b 0 (by simpa using h), matchIdxAux_eq a b 0]
    simp
  · decide

theorem sift_keys_correct_witness :
    min ([0, 1] : List ℤ).length ([0, 9] : List ℤ).length ≤ ([7, 8] : List ℤ).length
    ∧ sift_keys [0, 1] [0, 9] [7, 8] = some ([7], [0]) :=
  ⟨by decide, ((sift_keys_correct [0, 1] [0, 9] [7, 8] (by decide)).1).trans (by decide)⟩

lemma eveAux_length (eveBasis eveBit : ℕ → ℤ) (d : List Qubit) : ∀ i,
    (eveAux eveBasis eveBit i d).length = d.length := by
  induction d with
  | nil => intro i; simp [eveAux]
  | cons q qs ih => intro i; simp [eveAux, ih (i + 1)]

lemma apply_eve_length (d : List Qubit) (eveBasis eveBit : ℕ → ℤ) :
    (apply_eve d eveBasis eveBit).length = d.length :=
  eveAux_length eveBasis eveBit d 0

lemma packetLossAux_length (drop : ℕ → Bool) (d : List Qubit) : ∀ i,
    (packetLossAux drop i d).1.length + (packetLossAux drop i d).2 = d.length := by
  induction d with
  | nil => intro i; simp [packetLossAux]
  | cons q qs ih =>
    intro i
    rw [packetLossAux]
    by_cases hd : drop i
    · simp only [if_pos hd, List.length_cons]
      have := ih (i + 1)
      omega
    · simp only [if_neg hd, List.length_cons]
      have := ih (i + 1)
      omega

lemma apply_packet_loss_length (d : List Qubit) (rate : ℚ) (drop : ℕ → Bool) :
    (apply_packet_loss d rate drop).1.length + (apply_packet_loss d rate drop).2 = d.length := by
  rw [apply_packet_loss]
  by_cases hr : rate ≤ 0
  · simp [if_pos hr]
  · simp only [if_neg hr]
    exact packetLossAux_length drop d 0

lemma networkNoiseAux_length (flip : ℕ → Bool) (d : List Qubit) : ∀ i,
    (networkNoiseAux flip i d).1.length = d.length := by
  induction d with
  | nil => intro i; simp [networkNoiseAux]
  | cons q qs ih =>
    intro i
    rw [networkNoiseAux]
    by_cases hf : flip i
    · simp only [if_pos hf, List.length_cons, ih (i + 1)]
    · simp only [if_neg hf, List.length_cons, ih (i + 1)]

lemma apply_network_noise_length (d : List Qubit) (rate : ℚ) (flip : ℕ → Bool) :
    (apply_network_noise d rate flip).1.length = d.length := by
  rw [apply_network_noise]
  by_cases hr : rate ≤ 0
  · simp [if_pos hr]
  · simp only [if_neg hr]
    exact networkNoiseAux_length flip d 0

/-- C3: the channel pipeline applies exactly the three stages in the fixed
order eavesdropper (only when eve is active), then packet loss, then
network noise on the survivors, and returns the surviving sequence with
the dropped count, the flip count and the original count, the latter being
the input length measured before any stage runs; moreover the number of
survivors plus the dropped count equals the original count, so the output
is possibly shorter. -/
theorem get_quantum_data_pipeline (d : List Qubit) (cfg : NoiseConfig)
    (eveBasis eveBit : ℕ → ℤ) (drop flip : ℕ → Bool) :
    get_quantum_data d cfg eveBasis eveBit drop flip =
      ((apply_network_noise
          (apply_packet_loss (if cfg.eve_active then apply_eve d eveBasis eveBit else d)
            cfg.packet_loss_rate drop).1
          cfg.network_noise_rate flip).1,
       (apply_packet_loss (if cfg.eve_active then apply_eve d eveBasis eveBit else d)
          cfg.packet_loss_rate drop).2,
       (apply_network_noise
          (apply_packet_loss (if cfg.eve_active then apply_eve d eveBasis eveBit else d)
            cfg.packet_loss_rate drop).1
          cfg.network_noise_rate flip).2,
       d.length)
    ∧ (get_quantum_data d cfg eveBasis eveBit drop flip).2.2.2 = d.length
    ∧ (get_quantum_data d cfg eveBasis eveBit drop flip).1.length
        + (get_quantum_data d cfg eveBasis eveBit drop flip).2.1 = d.length := by
  refine ⟨rfl, rfl, ?_⟩
  show (apply_network_noise _ _ _).1.length + (apply_packet_loss _ _ _).2 = d.length
  rw [apply_network_noise_length]
  have h1 := apply_packet_loss_length (if cfg.eve_active then apply_eve d eveBasis eveBit else d)
    cfg.packet_loss_rate drop
  have h2 : (if cfg.eve_active then apply_eve d eveBasis eveBit else d).length = d.length := by
    by_cases he : cfg.eve_active
    · simp [if_pos he, apply_eve_length]
    · simp [if_neg he]
  omega

lemma eveAux_getD (eveBasis eveBit : ℕ → ℤ) (d : List Qubit) : ∀ i j, j < d.length →
    (eveAux eveBasis eveBit i d).getD j (Qubit.mk 0 0) =
      (if eveBasis (i + j) ≠ (d.getD j (Qubit.mk 0 0)).basis
       then Qubit.mk (eveBit (i + j)) (d.getD j (Qubit.mk 0 0)).basis
       else d.getD j (Qubit.mk 0 0)) := by
  induction d with
  | nil => intro i j hj; simp at hj
  | cons q qs ih =>
    intro i j hj
    cases j with
    | zero => simp [eveAux, List.getD_cons_zero]
    | succ j' =>
      rw [eveAux]
      simp only [List.getD_cons_succ]
      have := ih (i + 1) j' (by simpa using hj)
      rw [this]
      have harith : i + 1 + j' = i + (j' + 1) := by omega
      rw [harith]

/-- C7: when eve is active the eavesdropper stage maps each descriptor
independently: the output has the same length as the input, every
descriptor keeps its basis field, a descriptor whose basis equals the
drawn eavesdropper basis passes through unchanged, and on a differing
drawn basis the bit is replaced by the drawn random bit. -/
theorem apply_eve_spec (d : List Qubit) (eveBasis eveBit : ℕ → ℤ) :
    (apply_eve d eveBasis eveBit).length = d.length
    ∧ ∀ j, j < d.length →
        ((apply_eve d eveBasis eveBit).getD j (Qubit.mk 0 0)).basis
            = (d.getD j (Qubit.mk 0 0)).basis
        ∧ (eveBasis j = (d.getD j (Qubit.mk 0 0)).basis →
            (apply_eve d eveBasis eveBit).getD j (Qubit.mk 0 0) = d.getD j (Qubit.mk 0 0))
        ∧ (eveBasis j ≠ (d.getD j (Qubit.mk 0 0)).basis →
            (apply_eve d eveBasis eveBit).getD j (Qubit.mk 0 0)
              = Qubit.mk (eveBit j) (d.getD j (Qubit.mk 0 0)).basis) := by
  refine ⟨apply_eve_length d eveBasis eveBit, ?_⟩
  intro j hj
  have h := eveAux_getD eveBasis eveBit d 0 j hj
  have h0 : (0 : ℕ) + j = j := by omega
  rw [h0] at h
  rw [apply_eve, h]
  refine ⟨?_, ?_, ?_⟩
  · by_cases hb : eveBasis j ≠ (d.getD j (Qubit.mk 0 0)).basis
    · rw [if_pos hb]
    · rw [if_neg hb]
  · intro hb
    rw [if_neg (by simp [hb])]
  · intro hb
    rw [if_pos hb]

theorem apply_eve_spec_witness :
    (1 : ℕ) < ([Qubit.mk 0 0, Qubit.mk 1 1] : List Qubit).length
    ∧ (apply_eve [Qubit.mk 0 0, Qubit.mk 1 1] (fun _ => 0) (fun _ => 1)).getD 1 (Qubit.mk 0 0)
        = Qubit.mk 1 1 :=
  ⟨by decide,
   ((apply_eve_spec [Qubit.mk 0 0, Qubit.mk 1 1] (fun _ => 0) (fun _ => 1)).2 1
      (by decide)).2.2 (by decide)⟩

/-- C4: evaluation of the code at the failing input of the alignment
claim. Packet loss on two descriptors, dropping the one at index 0, keeps
relative order but records no original index; the survivor (original index
1, basis 1) is then sifted against the sender basis at position 0 (value
0) instead of position 1 (value 1), so the correctly measured surviving
bit is discarded even though the sender basis at the survivor original
position equals the receiver basis. -/
theorem packet_loss_sifting_misalignment :
    apply_packet_loss [Qubit.mk 0 0, Qubit.mk 1 1] (1 / 2) (fun i => i == 0)
      = ([Qubit.mk 1 1], 1)
    ∧ sift_keys [0, 1] [1] [1] = some ([], [])
    ∧ ([0, 1] : List ℤ).getD 1 0 = 1 := by
  refine ⟨?_, by decide, by decide⟩
  rw [apply_packet_loss, if_neg (by norm_num)]
  decide

/-- Sample size computed by `Bob.sample_for_verification` (bob.py lines
103-108): `max(1, total_len // 2)` below 10, else
`max(5, int(total_len * percentage))` with the only percentage ever passed
being the default 0.3; `int(total_len * 0.3)` equals `3 * total_len / 10`
in natural division for every attainable length (see the header note on
float truncation). -/
def sample_size (total_len : ℕ) : ℕ :=
  if total_len < 10 then max 1 (total_len / 2) else max 5 (3 * total_len / 10)

/-- Modelled from the spec: the sample-size formula as the spec words it,
`max(1, len/2)` below 10 and otherwise `max(5, round(len · 0.3))`, the
rounding written half-up as `(3·len + 5) / 10`; the counterexample below
evaluates it at a length whose product has fractional part 7/10, where
every rounding convention agrees. Kept only to compare with the
`sample_size` the code computes. -/
def sample_size_claimed (total_len : ℕ) : ℕ :=
  if total_len < 10 then max 1 (total_len / 2) else max 5 ((3 * total_len + 5) / 10)

/-- Shared shape of the comprehension
`[key[i] for i in range(len(key)) if i not in sample_indices]` used for
`remaining_key` in `Bob.sample_for_verification` (bob.py line 138) and for
`alice_remaining` in `compare_sample` (app.py line 380). -/
def remaining_of (key : List ℤ) (sample_indices : List ℕ) : List ℤ :=
  ((List.range key.length).filter (fun i => decide (i ∉ sample_indices))).map
    (fun i => key.getD i 0)

/-- `Bob.sample_for_verification` (bob.py lines 95-140). The in-place
`random.shuffle(all_indices)` is modelled by the oracle list `shuffled`,
a permutation of `List.range total_len`; the code then truncates it to the
sample size, sorts ascending, reads the bits at the sorted indices and
keeps the bits at all non-sampled indices in order. -/
def sample_for_verification (sifted_key : List ℤ) (shuffled : List ℕ) :
    List ℕ × List ℤ × List ℤ :=
  let total_len := sifted_key.length
  let k := sample_size total_len
  let sample_indices := List.insertionSort (· ≤ ·) (shuffled.take k)
  let sample_bits := sample_indices.map (fun i => sifted_key.getD i 0)
  let remaining_key := remaining_of sifted_key sample_indices
  (sample_indices, sample_bits, remaining_key)

lemma sampleIndices_nodup {key : List ℤ} {shuffled : List ℕ}
    (h : shuffled.Perm (List.range key.length)) :
    (sample_for_verification key shuffled).1.Nodup := by
  have hsh : shuffled.Nodup := (List.nodup_range key.length).perm h.symm
  have htake : (shuffled.take (sample_size key.length)).Nodup :=
    List.Nodup.sublist (List.take_sublist _ _) hsh
  exact htake.perm (List.perm_insertionSort _ _).symm

lemma sampleIndices_lt {key : List ℤ} {shuffled : List ℕ}
    (h : shuffled.Perm (List.range key.length)) :
    ∀ i ∈ (sample_for_verification key shuffled).1, i < key.length := by
  intro i hi
  have h1 : i ∈ shuffled.take (sample_size key.length) :=
    (List.perm_insertionSort _ _).mem_iff.mp hi
  have h2 : i ∈ shuffled := (List.take_sublist _ _).subset h1
  exact List.mem_range.mp (h.subset h2)

/-- C5 (amended): with the shuffle modelled as a permutation of
`[0, len)`, the sample indices are exactly that permutation truncated to
the sample size and sorted ascending, hence sorted, duplicate-free, within
range, and `min(sampleSize, len)` many; the sample bits are the sifted
bits at those indices and the remaining key is the sifted bits at the
non-sampled indices in original order; the sample size is
`max(1, len / 2)` below length 10 and otherwise
`max(5, floor(len · 0.3))` — floor, not round, which is the amendment. -/
theorem sample_for_verification_spec (key : List ℤ) (shuffled : List ℕ)
    (h : shuffled.Perm (List.range key.length)) :
    (sample_for_verification key shuffled).1
        = List.insertionSort (· ≤ ·) (shuffled.take (sample_size key.length))
    ∧ List.Sorted (· ≤ ·) (sample_for_verification key shuffled).1
    ∧ ((sample_for_verification key shuffled).1).Perm
        (shuffled.take (sample_size key.length))
    ∧ (sample_for_verification key shuffled).1.Nodup
    ∧ (∀ i ∈ (sample_for_verification key shuffled).1, i < key.length)
    ∧ (sample_for_verification key shuffled).1.length
        = min (sample_size key.length) key.length
    ∧ (sample_for_verification key shuffled).2.1
        = ((sample_for_verification key shuffled).1).map (fun i => key.getD i 0)
    ∧ (sample_for_verification key shuffled).2.2
        = remaining_of key (sample_for_verification key shuffled).1
    ∧ sample_size key.length
        = (if key.length < 10 then max 1 (key.length / 2)
           else max 5 (3 * key.length / 10)) := by
  refine ⟨rfl, ?_, List.perm_insertionSort _ _, sampleIndices_nodup h,
    sampleIndices_lt h, ?_, rfl, rfl, rfl⟩
  · exact List.sorted_insertionSort _ _
  · have h1 : (sample_for_verification key shuffled).1.length
        = (shuffled.take (sample_size key.length)).length :=
      (List.perm_insertionSort _ _).length_eq
    rw [h1, List.length_take, h.length_eq, List.length_range]

theorem sample_for_verification_spec_witness :
    ([1, 0] : List ℕ).Perm (List.range ([5, 7] : List ℤ).length)
    ∧ (sample_for_verification [5, 7] [1, 0]).1.length
        = min (sample_size ([5, 7] : List ℤ).length) ([5, 7] : List ℤ).length :=
  ⟨by decide, (sample_for_verification_spec [5, 7] [1, 0] (by decide)).2.2.2.2.2.1⟩

/-- C5 counterexample: at sifted length 19 the code computes sample size
`max(5, int(19 · 0.3)) = max(5, 5) = 5`, while the claim formula
`max(5, round(19 · 0.3)) = max(5, 6) = 6`; the sample produced on a
19-element key therefore has 5 indices, not 6. -/
theorem sample_size_round_counterexample :
    sample_size 19 = 5
    ∧ sample_size_claimed 19 = 6
    ∧ sample_size 19 ≠ sample_size_claimed 19
    ∧ (sample_for_verification (List.replicate 19 0) (List.range 19)).1.length = 5 := by
  refine ⟨by decide, by decide, by decide, ?_⟩
  decide

lemma filter_mem_perm {s : List ℕ} {n : ℕ} (hs : s.Nodup) (hsub : ∀ x ∈ s, x < n) :
    ((List.range n).filter (fun i => decide (i ∈ s))).Perm s := by
  apply List.perm_of_nodup_nodup_toFinset_eq
  · exact (List.nodup_range n).filter _
  · exact hs
  · ext x
    simp only [List.mem_toFinset, List.mem_filter, List.mem_range, decide_eq_true_eq]
    exact ⟨fun hx => hx.2, fun hx => ⟨hsub x hx, hx⟩⟩

lemma length_filter_not_mem {s : List ℕ} {n : ℕ} (hs : s.Nodup) (hsub : ∀ x ∈ s, x < n) :
    s.length + ((List.range n).filter (fun i => decide (i ∉ s))).length = n := by
  have h1 : ((List.range n).filter (fun i => decide (i ∈ s))).length = s.length :=
    (filter_mem_perm hs hsub).length_eq
  have h2 := List.length_eq_countP_add_countP (fun i => decide (i ∈ s)) (List.range n)
  rw [List.countP_eq_length_filter, List.countP_eq_length_filter, List.length_range] at h2
  have h3 : (fun a => decide (¬(decide (a ∈ s)) = true)) = (fun i => decide (i ∉ s)) := by
    funext a
    simp
  rw [h3] at h2
  omega

/-- C6: sampling partitions the sifted key: the number of sample indices
plus the length of the remaining key equals the length of the sifted key,
and no sample index occurs among the indices contributing to the remaining
key. -/
theorem sampling_partition (key : List ℤ) (shuffled : List ℕ)
    (h : shuffled.Perm (List.range key.length)) :
    (sample_for_verification key shuffled).1.length
        + (sample_for_verification key shuffled).2.2.length = key.length
    ∧ ∀ i ∈ (sample_for_verification key shuffled).1,
        i ∉ (List.range key.length).filter
          (fun j => decide (j ∉ (sample_for_verification key shuffled).1)) := by
  constructor
  · have hlen : (sample_for_verification key shuffled).2.2.length
        = ((List.range key.length).filter
            (fun j => decide (j ∉ (sample_for_verification key shuffled).1))).length := by
      have h0 : (sample_for_verification key shuffled).2.2
          = remaining_of key (sample_for_verification key shuffled).1 := rfl
      rw [h0, remaining_of, List.length_map]
    rw [hlen]
    exact length_filter_not_mem (sampleIndices_nodup h) (sampleIndices_lt h)
  · intro i hi hmem
    have := (List.mem_filter.mp hmem).2
    simp only [decide_eq_true_eq] at this
    exact this hi

theorem sampling_partition_witness :
    ([0, 2, 1] : List ℕ).Perm (List.range ([3, 4, 5] : List ℤ).length)
    ∧ (sample_for_verification [3, 4, 5] [0, 2, 1]).1.length
        + (sample_for_verification [3, 4, 5] [0, 2, 1]).2.2.length
        = ([3, 4, 5] : List ℤ).length :=
  ⟨by decide, (sampling_partition [3, 4, 5] [0, 2, 1] (by decide)).1⟩

/-- Error outcomes of the `compare_sample` route (app.py lines 345-367),
standing for its distinct error responses. -/
inductive ApiError where
  | missingMatches
  | noRawBits
  | invalidSampleIndices
deriving DecidableEq

/-- Success payload of the `compare_sample` route (app.py lines 387-393)
without the echoed noise configuration. -/
structure CompareResponse where
  aliceSampleBits : List ℤ
  errorCount : ℕ
  qber : ℚ
  verified : Bool
deriving DecidableEq

/-- The comprehension
`[alice.raw_bits[i] for i in matches if i < len(alice.raw_bits)]`
(app.py line 360): the sender sifted key, silently skipping match indices
out of range of the raw bits. -/
def alice_sifted (raw_bits : List ℤ) (ms : List ℕ) : List ℤ :=
  (ms.filter (fun i => decide (i < raw_bits.length))).map (fun i => raw_bits.getD i 0)

/-- Error count of the comparison loop (app.py lines 370-375): disagreeing
positions of `zip(alice_sample_bits, bob_sample_bits)`. -/
def error_count_of (alice_sample_bits bob_sample_bits : List ℤ) : ℕ :=
  ((alice_sample_bits.zip bob_sample_bits).filter (fun p => decide (p.1 ≠ p.2))).length

/-- QBER expression `(error_count / total) * 100 if total > 0 else 0`
(app.py line 377), with the float arithmetic taken exact. -/
def qber_of (error_count total : ℕ) : ℚ :=
  if 0 < total then ((error_count : ℚ) / (total : ℚ)) * 100 else 0

/-- The `compare_sample` route of app.py (lines 345-393) as a function of
the sender session state: it receives the sample indices, the receiver
sample bits and the original match indices (`none` when the field is
missing), and returns the response together with the sender shared key
after the call. The Python `IndexError` guard around
`[alice_sifted[i] for i in sample_indices]` becomes the up-front range
check on all sample indices, and on `qber == 0` the shared key is set to
the sifted key with the sampled positions removed, otherwise left
untouched. -/
def compare_sample (raw_bits : List ℤ) (shared_key : Option (List ℤ))
    (sample_indices : List ℕ) (bob_sample_bits : List ℤ)
    (originalMatches : Option (List ℕ)) :
    Except ApiError CompareResponse × Option (List ℤ) :=
  match originalMatches with
  | none => (Except.error ApiError.missingMatches, shared_key)
  | some ms =>
    if ms = [] then (Except.error ApiError.missingMatches, shared_key)
    else if raw_bits = [] then (Except.error ApiError.noRawBits, shared_key)
    else if sample_indices.all (fun i => decide (i < (alice_sifted raw_bits ms).length)) then
      let sifted := alice_sifted raw_bits ms
      let alice_sample_bits := sample_indices.map (fun i => sifted.getD i 0)
      let error_count := error_count_of alice_sample_bits bob_sample_bits
      let qber := qber_of error_count sample_indices.length
      let shared_key2 :=
        if qber = 0 then some (remaining_of sifted sample_indices) else shared_key
      (Except.ok (CompareResponse.mk alice_sample_bits error_count qber (decide (qber = 0))),
       shared_key2)
    else (Except.error ApiError.invalidSampleIndices, shared_key)

lemma compare_sample_empty_matches (raw_bits : List ℤ) (sk0 : Option (List ℤ))
    (si : List ℕ) (bb : List ℤ) :
    compare_sample raw_bits sk0 si bb (some []) = (Except.error ApiError.missingMatches, sk0) := by
  simp [compare_sample]

lemma compare_sample_empty_raw (sk0 : Option (List ℤ)) (si : List ℕ) (bb : List ℤ)
    {ms : List ℕ} (hms : ms ≠ []) :
    compare_sample [] sk0 si bb (some ms) = (Except.error ApiError.noRawBits, sk0) := by
  simp [compare_sample, hms]

lemma compare_sample_bad_indices (raw_bits : List ℤ) (sk0 : Option (List ℤ))
    (si : List ℕ) (bb : List ℤ) {ms : List ℕ} (hms : ms ≠ []) (hraw : raw_bits ≠ [])
    (hbad : ¬ ∀ i ∈ si, i < (alice_sifted raw_bits ms).length) :
    compare_sample raw_bits sk0 si bb (some ms)
      = (Except.error ApiError.invalidSampleIndices, sk0) := by
  have hall : ¬ (si.all (fun i => decide (i < (alice_sifted raw_bits ms).length)) = true) := by
    rw [List.all_eq_true]
    simpa using hbad
  simp only [compare_sample, if_neg hms, if_neg hraw, if_neg hall]

lemma compare_sample_ok (raw_bits : List ℤ) (sk0 : Option (List ℤ))
    (si : List ℕ) (bb : List ℤ) (ms : List ℕ) (hms : ms ≠ []) (hraw : raw_bits ≠ [])
    (hall : ∀ i ∈ si, i < (alice_sifted raw_bits ms).length) :
    compare_sample raw_bits sk0 si bb (some ms)
      = (Except.ok (CompareResponse.mk
            (si.map (fun i => (alice_sifted raw_bits ms).getD i 0))
            (error_count_of (si.map (fun i => (alice_sifted raw_bits ms).getD i 0)) bb)
            (qber_of (error_count_of
                (si.map (fun i => (alice_sifted raw_bits ms).getD i 0)) bb) si.length)
            (decide (qber_of (error_count_of
                (si.map (fun i => (alice_sifted raw_bits ms).getD i 0)) bb) si.length = 0))),
         if qber_of (error_count_of
              (si.map (fun i => (alice_sifted raw_bits ms).getD i 0)) bb) si.length = 0
         then some (remaining_of (alice_sifted raw_bits ms) si) else sk0) := by
  have hall2 : si.all (fun i => decide (i < (alice_sifted raw_bits ms).length)) = true := by
    rw [List.all_eq_true]
    simpa using hall
  simp only [compare_sample, if_neg hms, if_neg hraw, if_pos hall2]

lemma qber_of_eq (e t : ℕ) :
    qber_of e t = if t = 0 then 0 else 100 * (e : ℚ) / (t : ℚ) := by
  rw [qber_of]
  by_cases ht : t = 0
  · rw [if_neg (by omega), if_pos ht]
  · rw [if_pos (by omega), if_neg ht]
    ring

lemma qber_of_eq_zero_iff (e t : ℕ) : qber_of e t = 0 ↔ (e = 0 ∨ t = 0) := by
  rw [qber_of]
  by_cases ht : 0 < t
  · rw [if_pos ht]
    have ht0 : (t : ℚ) ≠ 0 := Nat.cast_ne_zero.mpr (by omega)
    constructor
    · intro h
      rcases mul_eq_zero.mp h with h1 | h1
      · rcases div_eq_zero_iff.mp h1 with h2 | h2
        · exact Or.inl (Nat.cast_eq_zero.mp h2)
        · exact absurd h2 ht0
      · exact absurd h1 (by norm_num)
    · intro h
      rcases h with h | h
      · rw [h]
        simp
      · omega
  · rw [if_neg ht]
    constructor
    · intro _
      right
      omega
    · intro _
      rfl

/-- C2: for every sample comparison that succeeds, `qber` is
`100 · errorCount / sampleSize` (0 on an empty sample), `verified` holds
exactly when `qber = 0`, equivalently exactly when the error count is zero
or the sample is empty; a nonzero error count in a nonempty sample forces
`verified = false` with the sender shared key left unset, and on
`qber = 0` the stored key is the sender sifted key with the sampled
positions removed. -/
theorem compare_sample_strict (raw_bits : List ℤ) (sk0 : Option (List ℤ))
    (si : List ℕ) (bb : List ℤ) (ms : List ℕ)
    (resp : CompareResponse) (sk' : Option (List ℤ))
    (h : compare_sample raw_bits sk0 si bb (some ms) = (Except.ok resp, sk')) :
    resp.qber = (if si.length = 0 then 0 else 100 * (resp.errorCount : ℚ) / (si.length : ℚ))
    ∧ (resp.verified = true ↔ resp.qber = 0)
    ∧ (resp.verified = true ↔ (resp.errorCount = 0 ∨ si.length = 0))
    ∧ (0 < si.length → resp.errorCount ≠ 0 → resp.verified = false ∧ sk' = sk0)
    ∧ (resp.qber = 0 → sk' = some (remaining_of (alice_sifted raw_bits ms) si)) := by
  have hms : ms ≠ [] := by
    intro hc
    rw [hc, compare_sample_empty_matches] at h
    exact absurd (congrArg Prod.fst h) (by simp)
  have hraw : raw_bits ≠ [] := by
    intro hc
    rw [hc, compare_sample_empty_raw sk0 si bb hms] at h
    exact absurd (congrArg Prod.fst h) (by simp)
  have hall : ∀ i ∈ si, i < (alice_sifted raw_bits ms).length := by
    by_contra hc
    rw [compare_sample_bad_indices raw_bits sk0 si bb hms hraw hc] at h
    exact absurd (congrArg Prod.fst h) (by simp)
  rw [compare_sample_ok raw_bits sk0 si bb ms hms hraw hall] at h
  rw [Prod.mk.injEq] at h
  obtain ⟨h1, h2⟩ := h
  rw [Except.ok.injEq] at h1
  obtain rfl := h1.symm
  refine ⟨?_, ?_, ?_, ?_, ?_⟩
  · exact qber_of_eq _ _
  · exact decide_eq_true_iff
  · rw [decide_eq_true_iff]
    exact qber_of_eq_zero_iff _ _
  · intro htot herr
    have hq : ¬ (qber_of (error_count_of
        (si.map (fun i => (alice_sifted raw_bits ms).getD i 0)) bb) si.length = 0) := by
      rw [qber_of_eq_zero_iff]
      push_neg
      exact ⟨herr, by omega⟩
    refine ⟨by simpa using decide_eq_false hq, ?_⟩
    rw [← h2, if_neg hq]
  · intro hq
    have hq' : qber_of (error_count_of
        (si.map (fun i => (alice_sifted raw_bits ms).getD i 0)) bb) si.length = 0 := hq
    rw [← h2, if_pos hq']

theorem compare_sample_strict_witness :
    (CompareResponse.mk [1] 1 (qber_of 1 1) (decide (qber_of 1 1 = 0))).verified = false
    ∧ (some [9] : Option (List ℤ)) = some [9] := by
  have hq : ¬ (qber_of 1 1 = 0) := by
    rw [qber_of_eq_zero_iff]
    rintro (hc | hc) <;> omega
  have h : compare_sample [1] (some [9]) [0] [0] (some [0])
      = (Except.ok (CompareResponse.mk [1] 1 (qber_of 1 1) (decide (qber_of 1 1 = 0))),
         some [9]) := by
    rw [compare_sample_ok [1] (some [9]) [0] [0] [0] (by decide) (by decide) (by decide)]
    have hM : (([0] : List ℕ).map (fun i => (alice_sifted [1] [0]).getD i 0)) = [1] := by
      decide
    have hE : error_count_of [1] [0] = 1 := by decide
    simp only [hM, hE, List.length_singleton]
    rw [if_neg hq]
  exact ((compare_sample_strict [1] (some [9]) [0] [0] [0]
      (CompareResponse.mk [1] 1 (qber_of 1 1) (decide (qber_of 1 1 = 0)))
      (some [9]) h).2.2.2.1 (by decide) (by decide))

lemma map_getD_range (key : List ℤ) :
    (List.range key.length).map (fun i => key.getD i 0) = key := by
  induction key with
  | nil => simp
  | cons x xs ih =>
    rw [List.length_cons, List.range_succ_eq_map, List.map_cons, List.map_map]
    have hcomp : ((fun i => (x :: xs).getD i 0) ∘ Nat.succ) = fun i => xs.getD i 0 := by
      funext j
      simp [Function.comp, List.getD_cons_succ]
    rw [List.getD_cons_zero, hcomp, ih]

lemma remaining_of_nil (key : List ℤ) : remaining_of key [] = key := by
  rw [remaining_of]
  have h1 : (List.range key.length).filter (fun i => decide (i ∉ ([] : List ℕ)))
      = List.range key.length := by
    apply List.filter_eq_self.mpr
    intro a _
    simp
  rw [h1, map_getD_range]

/-- C10: an empty sample-index list — which sampling produces on an empty
sifted key, the computed sample size 1 being truncated against zero
available indices — yields error count 0, qber 0 and verified true, and
the sender stores its entire sifted key, no position removed, as the
shared key: an empty sample always accepts. -/
theorem empty_sample_accepts (raw_bits : List ℤ) (sk0 : Option (List ℤ)) (bb : List ℤ)
    (ms : List ℕ) (h1 : ms ≠ []) (h2 : raw_bits ≠ []) :
    compare_sample raw_bits sk0 [] bb (some ms)
      = (Except.ok (CompareResponse.mk [] 0 0 true), some (alice_sifted raw_bits ms))
    ∧ sample_size 0 = 1
    ∧ sample_for_verification [] [] = ([], [], []) := by
  refine ⟨?_, by decide, by decide⟩
  rw [compare_sample_ok raw_bits sk0 [] bb ms h1 h2 (by intro i hi; simp at hi)]
  have hq : qber_of (error_count_of (([] : List ℕ).map
      (fun i => (alice_sifted raw_bits ms).getD i 0)) bb) ([] : List ℕ).length = 0 := rfl
  rw [Prod.mk.injEq]
  constructor
  · rw [Except.ok.injEq]
    have hv : decide (qber_of (error_count_of (([] : List ℕ).map
        (fun i => (alice_sifted raw_bits ms).getD i 0)) bb) ([] : List ℕ).length = 0)
        = true := decide_eq_true hq
    rw [hv]
    rfl
  · rw [if_pos hq, remaining_of_nil]

theorem empty_sample_accepts_witness :
    ([0] : List ℕ) ≠ []
    ∧ ([1] : List ℤ) ≠ []
    ∧ compare_sample [1] none [] [] (some [0])
        = (Except.ok (CompareResponse.mk [] 0 0 true), some (alice_sifted [1] [0])) :=
  ⟨by decide, by decide, (empty_sample_accepts [1] none [] [0] (by decide) (by decide)).1⟩

/-- C9: on invalid input — missing or empty match indices, or sample
indices out of range of the sender sifted key — the comparison reports the
error to the caller at once and the session state, in particular any
previously stored shared key, is returned unchanged; no field of the
verification step is partially written. -/
theorem compare_sample_input_errors (raw_bits : List ℤ) (sk0 : Option (List ℤ))
    (si : List ℕ) (bb : List ℤ) (ms : Option (List ℕ)) :
    (∀ e, (compare_sample raw_bits sk0 si bb ms).1 = Except.error e →
        (compare_sample raw_bits sk0 si bb ms).2 = sk0)
    ∧ (ms = none ∨ ms = some [] →
        (compare_sample raw_bits sk0 si bb ms).1 = Except.error ApiError.missingMatches)
    ∧ (∀ l, ms = some l → l ≠ [] → raw_bits ≠ [] →
        (∃ i ∈ si, (alice_sifted raw_bits l).length ≤ i) →
        (compare_sample raw_bits sk0 si bb ms).1
          = Except.error ApiError.invalidSampleIndices) := by
  refine ⟨?_, ?_, ?_⟩
  · intro e he
    match ms with
    | none => rfl
    | some l =>
      by_cases hl : l = []
      · rw [hl, compare_sample_empty_matches]
      · by_cases hr : raw_bits = []
        · rw [hr, compare_sample_empty_raw sk0 si bb hl]
        · by_cases hb : ∀ i ∈ si, i < (alice_sifted raw_bits l).length
          · rw [compare_sample_ok raw_bits sk0 si bb l hl hr hb] at he
            exact absurd he (by simp)
          · rw [compare_sample_bad_indices raw_bits sk0 si bb hl hr hb]
  · intro hcase
    rcases hcase with hnone | hempty
    · rw [hnone]
      rfl
    · rw [hempty, compare_sample_empty_matches]
  · intro l hl hne hraw hbad
    rw [hl, compare_sample_bad_indices raw_bits sk0 si bb hne hraw
      (by push_neg; obtain ⟨i, hi, hle⟩ := hbad; exact ⟨i, hi, by omega⟩)]

theorem compare_sample_input_errors_witness :
    (compare_sample [1] (some [0, 1]) [5] [] (some [0])).1
        = Except.error ApiError.invalidSampleIndices
    ∧ (compare_sample [1] (some [0, 1]) [5] [] (some [0])).2 = some [0, 1] :=
  ⟨(compare_sample_input_errors [1] (some [0, 1]) [5] [] (some [0])).2.2 [0] rfl
      (by decide) (by decide) ⟨5, by decide, by decide⟩,
   (compare_sample_input_errors [1] (some [0, 1]) [5] [] (some [0])).1
      ApiError.invalidSampleIndices
      ((compare_sample_input_errors [1] (some [0, 1]) [5] [] (some [0])).2.2 [0] rfl
        (by decide) (by decide) ⟨5, by decide, by decide⟩)⟩

/-- `randomkey.generate_masked_key` (randomkey.py lines 4-33): the
`secrets.choice([0, 1])` draws are modelled by the oracles; the mask is
applied by `zip`, truncating `masked_bits` to the shorter of `length` and
the pattern length; the encoding loop then reads `masked_bits[i]` for
every `i < length`, which raises IndexError — modelled as `none` — when
the pattern is shorter than `length`. Encoded qubits are recorded by their
classical description (masked bit, basis). -/
def generate_masked_key (length : ℕ) (randBit randBasis : ℕ → ℕ)
    (special_pattern : List ℕ) : Option (List ℕ × List ℕ × List (ℕ × ℕ)) :=
  let alice_bits := (List.range length).map randBit
  let alice_bases := (List.range length).map randBasis
  let masked_bits := (alice_bits.zip special_pattern).map (fun p => p.1 ^^^ p.2)
  if length ≤ masked_bits.length then
    some (alice_bits, alice_bases,
      (List.range length).map (fun i => (masked_bits.getD i 0, alice_bases.getD i 0)))
  else none

/-- C8: key generation crashes — IndexError, modelled `none` — for
length 1 with an empty mask pattern supplied, although the claim allows a
failure only at length 0; at length 0 the code in fact returns empty
sequences, and whenever the pattern is at least `length` long it succeeds
with bit and basis sequences of exactly `length` elements, neither
truncated nor padded. -/
theorem generate_masked_key_pattern_short :
    generate_masked_key 1 (fun _ => 0) (fun _ => 0) [] = none
    ∧ generate_masked_key 0 (fun _ => 0) (fun _ => 0) [] = some ([], [], [])
    ∧ ∀ (length : ℕ) (randBit randBasis : ℕ → ℕ) (special_pattern : List ℕ),
        length ≤ special_pattern.length →
        (generate_masked_key length randBit randBasis special_pattern).isSome = true
        ∧ ∀ bits bases enc,
            generate_masked_key length randBit randBasis special_pattern
              = some (bits, bases, enc) →
            bits.length = length ∧ bases.length = length := by
  refine ⟨by decide, by decide, ?_⟩
  intro length randBit randBasis special_pattern hp
  have hlen : ((((List.range length).map randBit).zip special_pattern).map
      (fun p => p.1 ^^^ p.2)).length = length := by
    rw [List.length_map, List.length_zip, List.length_map, List.length_range]
    omega
  constructor
  · simp only [generate_masked_key, hlen, if_pos le_rfl, Option.isSome_some]
  · intro bits bases enc hsome
    simp only [generate_masked_key, hlen, if_pos le_rfl, Option.some.injEq,
      Prod.mk.injEq] at hsome
    obtain ⟨hb, hbs, _⟩ := hsome
    rw [← hb, ← hbs]
    simp

theorem generate_masked_key_pattern_short_witness :
    (1 : ℕ) ≤ ([0] : List ℕ).length
    ∧ (generate_masked_key 1 (fun _ => 0) (fun _ => 0) [0]).isSome = true :=
  ⟨by decide,
   (generate_masked_key_pattern_short.2.2 1 (fun _ => 0) (fun _ => 0) [0] (by decide)).1⟩

end BB84
